import Mathlib

/-!
Verification development for the `valuepath` package: a JSONPath-like
dotted/bracketed path mini-language (`Path`, its parser `FromString`, and the
navigation / mutation / prefix-matching operations on `Path`).

Strings are modelled as `List Char`.  The Go source indexes bytes; every input
exercised here is ASCII, and the separator / bracket / quote characters that
drive the parser are ASCII bytes that cannot occur inside a multi-byte UTF-8
sequence, so the character-level model agrees with Go's byte-level scanning on
the inputs in scope.

The reference Go source is defective in places (it mixes a `[]pathPart` store
with string-typed element access, negates an `int`, and has a `.`-switch case
with an empty body).  Where the source is determinate modulo such type slips,
the embedding follows the source control flow bug-for-bug (each such reading
is recorded in the doc comment of the definition).  The main scan loop of
`FromString` is given explicit fuel so that its non-termination on concrete
inputs is provable; `none` means the fuel ran out.
-/

namespace Valuepath

/-- The distinguished characters of the path grammar.  `quoteChar` is the
single-quote byte 0x27 used for map keys. -/
def quoteChar : Char := Char.ofNat 39

def dotChar : Char := Char.ofNat 46

def lbrackChar : Char := Char.ofNat 91

def rbrackChar : Char := Char.ofNat 93

/-- `partType` indicates the type of the path part (Go `partType` with
constants `partTypeField`, `partTypeElement`, `partTypeKey`). -/
inductive partType where
  | field
  | element
  | key
deriving DecidableEq, Repr, Inhabited

/-- Go struct `pathPart`: a tagged part of a `Path` with a list `index` and a
field name / map key `fieldOrKey`.  Go zero values: `index = 0`,
`fieldOrKey = ""`. -/
structure pathPart where
  partType : partType
  index : Int
  fieldOrKey : List Char
deriving DecidableEq, Repr

instance : Inhabited pathPart := ⟨⟨partType.field, 0, []⟩⟩

/-- Go struct `Path`: an ordered sequence of `pathPart`. -/
structure Path where
  parts : List pathPart
deriving DecidableEq, Repr

/-- Shorthand for a `Field` part carrying identifier `w` (Go
`pathPart{partType: partTypeField, fieldOrKey: w}`). -/
def mkField (w : List Char) : pathPart := ⟨partType.field, 0, w⟩

/-- Go `strings.IndexAny(s, chars)` restricted to single-byte needles:
position of the first character of `s` that occurs in `chars`, `none` when no
character of `s` does (Go returns -1 then). -/
def indexAny : List Char → List Char → Option Nat
  | [], _ => none
  | c :: rest, chars =>
    if chars.contains c then some 0
    else (indexAny rest chars).map (· + 1)

/-- Go `strings.Split(s, sep)` for a single-character separator.  Note
`goSplit [] sep = [[]]`: Go `strings.Split("", ".")` is `[""]`. -/
def goSplit : List Char → Char → List (List Char)
  | [], _ => [[]]
  | c :: rest, sep =>
    if c = sep then [] :: goSplit rest sep
    else
      match goSplit rest sep with
      | [] => [[c]]
      | w :: ws => (c :: w) :: ws

/-- Go `strings.Join(ws, sep)` for a single-character separator. -/
def goJoin : List (List Char) → Char → List Char
  | [], _ => []
  | [w], _ => w
  | w :: ws, sep => w ++ sep :: goJoin ws sep

/-- Go `strings.EqualFold(a, b)` on the ASCII inputs in scope: equality after
mapping every character to lower case.  (Go performs Unicode simple case
folding; on ASCII it coincides with `Char.toLower` comparison.) -/
def eqFold (a b : List Char) : Bool :=
  a.map Char.toLower == b.map Char.toLower

/-- Go `unicode.IsDigit` applied to one byte of the subject: for byte values,
only the ASCII digits `'0'..'9'` are Unicode decimal digits. -/
def isGoDigit (c : Char) : Bool := c.isDigit

/-- Go `strconv.Atoi` on an all-digit, non-empty numeral (the only shape the
parser feeds it): its value, or an error when the value exceeds the 64-bit
`int` range (Go returns `ErrRange` then, which `FromString` maps to
`ErrInvalidPath`). -/
def goAtoi (s : List Char) : Except Unit Int :=
  if s = [] then .error ()
  else if s.all isGoDigit then
    let v : Nat := s.foldl (fun a c => a * 10 + (c.toNat - 48)) 0
    if v ≤ 9223372036854775807 then .ok (v : Int) else .error ()
  else .error ()

/-- The digit-consuming loop of Go `findElementIndexWithClosingOffset`:
`idxStr` is the numeral accumulated so far, `cursor` the current position in
the original argument, `rest` the characters from `cursor` on.  Returns the
parsed index together with the position of the closing `]` (Go's `cursor` at
the moment it sees `]`).  Running past the end of the input, or meeting a
character that is neither a digit nor `]`, is `ErrInvalidPath`.  (The source's
`return nil, ErrInvalidPath` and `return -1. - 1, ErrInvalidPath` lines do not
type-check in Go; every error exit is modelled as the error case, matching the
enclosing `if err != nil` treatment at the call site.) -/
def findElemLoop : List Char → Nat → List Char → Except Unit (Int × Nat)
  | _, _, [] => .error ()
  | idxStr, cursor, c :: rest =>
    if isGoDigit c then findElemLoop (idxStr ++ [c]) (cursor + 1) rest
    else if c = rbrackChar then
      match goAtoi idxStr with
      | .error _ => .error ()
      | .ok idx => .ok (idx, cursor)
    else .error ()

/-- Go `findElementIndexWithClosingOffset(subject)`: reads the leading digit
run of `subject` up to a closing `]`, returning the numeral's integer value
and the offset of the `]`.  The Go code reads `subject[0]` unconditionally;
it is only ever called with a non-empty argument whose first character is a
digit (Go would panic on the empty string, modelled as an error that is never
reached from `fromString`). -/
def findElementIndexWithClosingOffset : List Char → Except Unit (Int × Nat)
  | [] => .error ()
  | c :: rest => findElemLoop [c] 1 rest

/-- The mutable locals of the `FromString` scan loop. -/
structure ScanState where
  cursor : Nat
  leftBracketPos : Int
  parts : List pathPart
deriving DecidableEq, Repr

/-- One iteration of the `for {}` loop in Go `FromString` (source lines
285-347), translated bug-for-bug:

* `idxSpecial` is computed relative to `subject[cursor:]` but then used as an
  absolute position (`special := subject[idxSpecial]`, `cursor = idxSpecial+1`,
  `mapKey := subject[leftBracketPos:idxSpecial]`) — the source never adds
  `cursor` back;
* the `case '.':` body is an `if` with an empty block, so a `.` (and, through
  the relative/absolute confusion, any character other than `[`) changes no
  state at all;
* in the quote branch, `leftBracketPos` is `-1` unless previously assigned,
  and no assignment to a non-negative value exists anywhere, so the
  `leftBracketPos < 0` test always fails the branch into `ErrInvalidPath`.

Result: `error` = `ErrInvalidPath` return, `inr parts` = loop `break` /
normal return, `inl st` = next iteration. -/
def scanStep (subject : List Char) (st : ScanState) :
    Except Unit (ScanState ⊕ List pathPart) :=
  let subjectLen := subject.length
  match indexAny (subject.drop st.cursor) [lbrackChar, dotChar] with
  | none =>
    -- no more special chars: the remainder, if any, is a field name part
    if st.cursor < subjectLen then
      .ok (.inr (st.parts ++ [mkField (subject.drop st.cursor)]))
    else
      .ok (.inr st.parts)
  | some idxSpecial =>
    -- `special := subject[idxSpecial]` — absolute read of a relative index.
    -- The index is always < subject.length, so the default never fires.
    let special := subject.getD idxSpecial ' '
    if special = lbrackChar then
      if st.leftBracketPos > 0 then .error ()
      else
        let cursor := idxSpecial + 1
        if cursor ≥ subjectLen then .error ()
        else
          let nextChar := subject.getD cursor ' '
          if nextChar = quoteChar then
            if st.leftBracketPos < 0 ∨ st.leftBracketPos > (idxSpecial : Int) then
              .error ()
            else
              let mapKey := (subject.take idxSpecial).drop st.leftBracketPos.toNat
              .ok (.inl { cursor := idxSpecial + 1, leftBracketPos := -1,
                          parts := st.parts ++
                            [⟨partType.key, 0, mapKey⟩] })
          else if isGoDigit nextChar then
            match findElementIndexWithClosingOffset (subject.drop cursor) with
            | .error _ => .error ()
            | .ok (idx, offset) =>
              .ok (.inl { cursor := cursor + offset,
                          leftBracketPos := st.leftBracketPos,
                          parts := st.parts ++ [⟨partType.element, idx, []⟩] })
          else .error ()
    else
      -- `case '.':` (empty body) and every other character: no state change
      .ok (.inl st)

/-- The `FromString` scan loop with explicit fuel; `none` means the fuel ran
out, i.e. the loop had not finished after that many iterations. -/
def scanLoop (subject : List Char) : Nat → ScanState →
    Option (Except Unit (List pathPart))
  | 0, _ => none
  | fuel + 1, st =>
    match scanStep subject st with
    | .error _ => some (.error ())
    | .ok (.inr parts) => some (.ok parts)
    | .ok (.inl st') => scanLoop subject fuel st'

/-- Go `FromString(subject)` (source lines 265-349).  The bracket-free fast
path follows the source comment's stated intent — "check if there are any
square brackets in the string and if not, create path parts indicating whole
field values" — since the literal `!strings.IndexAny(subject, "[]")` negates
an `int` and does not type-check; the fast path splits on `.` and wraps every
piece, empty or not, in a `Field` part (the source's composite literal there
names the field `pathType` and the constant `pathTypeField`, neither of which
exists — read as `partType`/`partTypeField`).  Otherwise the fuelled scan
loop runs from cursor 0 with `leftBracketPos = -1` and no parts. -/
def fromString (fuel : Nat) (subject : List Char) :
    Option (Except Unit Path) :=
  if indexAny subject [lbrackChar, rbrackChar] = none then
    some (.ok ⟨(goSplit subject dotChar).map mkField⟩)
  else
    (scanLoop subject fuel ⟨0, -1, []⟩).map (·.map Path.mk)

/-- Go `(p *Path) String()`.  The source body is
`strings.Join(p.parts, ".")` with `p.parts : []pathPart`, which does not
type-check in Go.  Modelled from the spec: §4.2 defines `string()` as
rendering the segment identifiers joined by `.`, so each part contributes its
`fieldOrKey` text. -/
def Path.render (p : Path) : List Char :=
  goJoin (p.parts.map pathPart.fieldOrKey) dotChar

/-- Go `(p *Path) Pop()`: removes the last part and returns it.  The source
declares the returned part as `string` while reading it from the `[]pathPart`
store (ill-typed); modelled from the spec (§4.2 `pop() -> Segment?`) as an
optional `pathPart`, where `none` is the Go zero value returned when the Path
is empty.  Returns the popped part together with the updated Path. -/
def Path.Pop (p : Path) : Option pathPart × Path :=
  if p.parts.length > 0 then
    (p.parts.getLast?, ⟨p.parts.dropLast⟩)
  else
    (none, p)

/-- Go `(p *Path) PopFront()`: removes the first part and returns it; same
string/part type slip and modelling as `Path.Pop`. -/
def Path.PopFront (p : Path) : Option pathPart × Path :=
  if p.parts.length > 0 then
    (p.parts.head?, ⟨p.parts.tail⟩)
  else
    (none, p)

/-- Go `(p *Path) Empty()`. -/
def Path.Empty (p : Path) : Bool := p.parts.length = 0

/-- Go `(p *Path) Size()`. -/
def Path.Size (p : Path) : Nat := p.parts.length

/-- Pointwise front-comparison loop shared by `HasPrefix` and
`HasPrefixFold`: Go's `for i, s := range subjectSplit` comparing
`p.parts[i]` against `s` (the part is compared through its identifier text —
the source compares a `pathPart` to a `string`, which is ill-typed; spec §4.2
defines the comparison on the segments "rendered as plain identifiers").
The `[], _ :: _` case is unreachable after the caller's length guard, which
mirrors why Go's `p.parts[i]` indexing is safe. -/
def prefixMatch (eq : List Char → List Char → Bool) :
    List pathPart → List (List Char) → Bool
  | _, [] => true
  | [], _ :: _ => false
  | p :: ps, s :: ss => eq p.fieldOrKey s && prefixMatch eq ps ss

/-- Go `(p *Path) HasPrefix(subject)`: split the subject on `.`; false when
the split is longer than the Path, else case-sensitive pointwise comparison
from the front. -/
def Path.hasPrefixStr (p : Path) (subject : List Char) : Bool :=
  let subjectSplit := goSplit subject dotChar
  if subjectSplit.length > p.parts.length then false
  else prefixMatch (fun a b => a == b) p.parts subjectSplit

/-- Go `(p *Path) HasPrefixFold(subject)`: as `hasPrefixStr` but comparing
with `strings.EqualFold`. -/
def Path.hasPrefixFold (p : Path) (subject : List Char) : Bool :=
  let subjectSplit := goSplit subject dotChar
  if subjectSplit.length > p.parts.length then false
  else prefixMatch eqFold p.parts subjectSplit

/-! ### Go slice semantics for `Copy` / `CopyAt` / `PushBack`

`Copy` returns `&Path{p.parts}` and `CopyAt` returns
`&Path{p.parts[0 : index+1]}`: both produce a slice header over the *same*
backing array as the receiver.  To reason about the aliasing this causes, a
Go slice is modelled explicitly as a header (array id, offset, length,
capacity) over a heap of arrays, following the Go language specification:
re-slicing keeps the backing array (with capacity measured from the new
offset), and `append` writes in place when the length is below the capacity,
allocating a fresh array only otherwise. -/

/-- A Go slice header: backing array id, offset, length, capacity. -/
structure GoSlice where
  arr : Nat
  off : Nat
  len : Nat
  cap : Nat
deriving DecidableEq, Repr

/-- The heap of backing arrays.  Array `i` is `m.getD i []`; its stored list
covers the full capacity of the slices into it. -/
abbrev SliceMem := List (List pathPart)

/-- Contents of backing array `i`. -/
def memArr (m : SliceMem) (i : Nat) : List pathPart := m.getD i []

/-- Go `s[i]`: element `i` of slice `s` (defined when `i < s.len`). -/
def sliceRead (m : SliceMem) (s : GoSlice) (i : Nat) : pathPart :=
  (memArr m s.arr).getD (s.off + i) default

/-- Go `append(s, x)` for one element: when `len < cap` the element is
written into the backing array in place and the header re-sliced (this case
is fixed by the Go specification); otherwise a fresh array is allocated
holding the old visible elements plus `x` (the runtime's extra growth beyond
`len+1` is left out — no claim exercised here reaches this branch with a
later in-place write into the spare capacity). -/
def sliceAppend (m : SliceMem) (s : GoSlice) (x : pathPart) :
    SliceMem × GoSlice :=
  if s.len < s.cap then
    (m.set s.arr ((memArr m s.arr).set (s.off + s.len) x),
     { s with len := s.len + 1 })
  else
    let contents := ((memArr m s.arr).drop s.off).take s.len ++ [x]
    (m ++ [contents], ⟨m.length, 0, s.len + 1, s.len + 1⟩)

/-- Go `(p *Path) PushBack(part)` over slice headers:
`p.parts = append(p.parts, part)`. -/
def slicePushBack (m : SliceMem) (s : GoSlice) (x : pathPart) :
    SliceMem × GoSlice :=
  sliceAppend m s x

/-- Go `(p *Path) Copy()` over slice headers: `&Path{p.parts}` copies only
the header, so the result shares the backing array, offset, length and
capacity of the receiver. -/
def sliceCopy (s : GoSlice) : GoSlice := s

/-- Go `(p *Path) CopyAt(index)` over slice headers:
`&Path{p.parts[0 : index+1]}` after the bounds guard.  Per the Go
specification, `s[0 : index+1]` keeps the backing array and offset and has
length `index+1` and the receiver's capacity. -/
def sliceCopyAt (s : GoSlice) (index : Int) : Option GoSlice :=
  if index < 0 ∨ s.len = 0 ∨ (index : Int) > (s.len : Int) - 1 then none
  else some { s with len := index.toNat + 1 }

/-- Go `(p *Path) Pop()` over slice headers: `p.parts = p.parts[:len-1]`
(header shrinks; the backing array is untouched). -/
def slicePop (s : GoSlice) : GoSlice :=
  if s.len > 0 then { s with len := s.len - 1 } else s

/-! ### General lemmas -/

theorem goSplit_no_sep (sep : Char) :
    ∀ w : List Char, sep ∉ w → goSplit w sep = [w] := by
  intro w
  induction w with
  | nil => intro _; rfl
  | cons c w ih =>
    intro h
    have hc : c ≠ sep := fun hcs => h (hcs ▸ List.mem_cons_self c w)
    have hw : sep ∉ w := fun hs => h (List.mem_cons_of_mem c hs)
    simp only [goSplit, if_neg hc, ih hw]

theorem goSplit_sep_append (sep : Char) (rest : List Char) :
    ∀ w : List Char, sep ∉ w →
      goSplit (w ++ sep :: rest) sep = w :: goSplit rest sep := by
  intro w
  induction w with
  | nil => intro _; simp [goSplit]
  | cons c w ih =>
    intro h
    have hc : c ≠ sep := fun hcs => h (hcs ▸ List.mem_cons_self c w)
    have hw : sep ∉ w := fun hs => h (List.mem_cons_of_mem c hs)
    simp only [List.cons_append, goSplit, if_neg hc, List.append_eq]
    rw [ih hw]

theorem goSplit_goJoin (sep : Char) :
    ∀ ids : List (List Char), ids ≠ [] → (∀ w ∈ ids, sep ∉ w) →
      goSplit (goJoin ids sep) sep = ids := by
  intro ids
  induction ids with
  | nil => intro h; exact absurd rfl h
  | cons w ws ih =>
    intro _ hmem
    cases ws with
    | nil =>
      simpa [goJoin] using goSplit_no_sep sep w (hmem w (List.mem_cons_self w []))
    | cons w' ws' =>
      have hw : sep ∉ w := hmem w (List.mem_cons_self w (w' :: ws'))
      have hrest : ∀ u ∈ w' :: ws', sep ∉ u := fun u hu =>
        hmem u (List.mem_cons_of_mem w hu)
      simp only [goJoin, goSplit_sep_append sep _ w hw,
        ih (List.cons_ne_nil w' ws') hrest]

theorem mem_goJoin (sep : Char) :
    ∀ ids : List (List Char), ∀ c ∈ goJoin ids sep,
      c = sep ∨ ∃ w ∈ ids, c ∈ w := by
  intro ids
  induction ids with
  | nil => intro c hc; simp [goJoin] at hc
  | cons w ws ih =>
    intro c hc
    cases ws with
    | nil =>
      exact Or.inr ⟨w, List.mem_cons_self w [], by simpa [goJoin] using hc⟩
    | cons w' ws' =>
      simp only [goJoin, List.mem_append, List.mem_cons] at hc
      rcases hc with hcw | hcs | hcj
      · exact Or.inr ⟨w, List.mem_cons_self w (w' :: ws'), hcw⟩
      · exact Or.inl hcs
      · rcases ih c hcj with h | ⟨u, hu, hcu⟩
        · exact Or.inl h
        · exact Or.inr ⟨u, List.mem_cons_of_mem w hu, hcu⟩

theorem indexAny_eq_none (chars : List Char) :
    ∀ s : List Char, (∀ c ∈ s, chars.contains c = false) →
      indexAny s chars = none := by
  intro s
  induction s with
  | nil => intro _; rfl
  | cons c rest ih =>
    intro h
    have hc : chars.contains c = false := h c (List.mem_cons_self c rest)
    have hrest : indexAny rest chars = none :=
      ih fun d hd => h d (List.mem_cons_of_mem c hd)
    simp only [indexAny, hc, Bool.false_eq_true, if_false, hrest, Option.map_none']

theorem prefixMatch_mono (f g : List Char → List Char → Bool)
    (hfg : ∀ a b, f a b = true → g a b = true) :
    ∀ (ss : List (List Char)) (ps : List pathPart),
      prefixMatch f ps ss = true → prefixMatch g ps ss = true := by
  intro ss
  induction ss with
  | nil => intro ps _; cases ps <;> rfl
  | cons s ss ih =>
    intro ps h
    cases ps with
    | nil => exact absurd h (by simp [prefixMatch])
    | cons p ps =>
      simp only [prefixMatch, Bool.and_eq_true] at h ⊢
      exact ⟨hfg _ _ h.1, ih ps h.2⟩

/-! ### Claim inputs -/

def c1input : List Char := "Publisher.Addresses[0].City".toList

/-- The string `Books['Gone With the Wind']`. -/
def c2input : List Char :=
  "Books[".toList ++ [quoteChar] ++ "Gone With the Wind".toList ++
    [quoteChar] ++ "]".toList

def c5input : List Char := "A.B[0]".toList

/-! ### Claims -/

/-- Claim C1: the claim says parsing `"Publisher.Addresses[0].City"` succeeds
with segments `[Field Publisher, Field Addresses, Element 0, Field City]`.
The code never returns on this input: the first special character found is
the `.` at offset 9, whose switch case has an empty body and advances
nothing, so the scan loop repeats the same iteration forever.  Formally, the
fuelled scan runs out of fuel for every amount of fuel. -/
theorem c1_scan_never_terminates :
    ∀ fuel : Nat, fromString fuel c1input = none := by
  have hstep : scanStep c1input ⟨0, -1, []⟩ = .ok (.inl ⟨0, -1, []⟩) := rfl
  have key : ∀ fuel : Nat, scanLoop c1input fuel ⟨0, -1, []⟩ = none := by
    intro fuel
    induction fuel with
    | zero => rfl
    | succ n ih => simp only [scanLoop, hstep]; exact ih
  intro fuel
  have hbr : ¬ indexAny c1input [lbrackChar, rbrackChar] = none := by decide
  simp only [fromString, if_neg hbr, key fuel, Option.map_none']

/-- Claim C2: the claim says parsing `"Books['Gone With the Wind']"` succeeds
with `[Field Books, Key "Gone With the Wind"]`.  The code instead fails with
`ErrInvalidPath` in its first scan iteration: on seeing the quote after the
`[`, it requires a previously recorded non-negative `leftBracketPos`, but no
assignment ever sets `leftBracketPos` to a non-negative value, so the quote
branch always errors. -/
theorem c2_quoted_key_rejected :
    ∀ fuel : Nat, fromString (fuel + 1) c2input = some (.error ()) := by
  intro fuel
  rfl

/-- Claim C3: the claim says all of `"A..B"`, `".A"`, `"A."`, `"A["`,
`"A[1"`, `"A[x]"`, `"A['b"`, `"A[['0']]"` fail with `InvalidPath`.  The
bracketed five do fail, but the three bracket-free strings take the fast
path, which splits on `.` and accepts every piece: the code returns successful
Paths containing empty-named `Field` parts instead of an error. -/
theorem c3_dot_strings_accepted :
    ∀ fuel : Nat,
      fromString fuel ("A..B".toList) =
        some (.ok ⟨[mkField ['A'], mkField [], mkField ['B']]⟩) ∧
      fromString fuel (".A".toList) =
        some (.ok ⟨[mkField [], mkField ['A']]⟩) ∧
      fromString fuel ("A.".toList) =
        some (.ok ⟨[mkField ['A'], mkField []]⟩) ∧
      fromString (fuel + 1) ("A[".toList) = some (.error ()) ∧
      fromString (fuel + 1) ("A[1".toList) = some (.error ()) ∧
      fromString (fuel + 1) ("A[x]".toList) = some (.error ()) ∧
      fromString (fuel + 1) ("A[".toList ++ [quoteChar] ++ "b".toList) =
        some (.error ()) ∧
      fromString (fuel + 1)
          ("A[[".toList ++ [quoteChar] ++ "0".toList ++ [quoteChar] ++
            "]]".toList) = some (.error ()) := by
  intro fuel
  exact ⟨rfl, rfl, rfl, rfl, rfl, rfl, rfl, rfl⟩

/-- Claim C4: the claim says parsing the empty string yields a Path of size
0.  The code takes the bracket-free fast path, where Go
`strings.Split("", ".")` is `[""]`, so the result is a Path of size 1 whose
single part is a `Field` with empty name. -/
theorem c4_empty_string_size_one :
    ∀ fuel : Nat,
      fromString fuel [] = some (.ok ⟨[mkField []]⟩) ∧
      Path.Size ⟨[mkField []]⟩ = 1 := by
  intro fuel
  exact ⟨rfl, rfl⟩

/-- Claim C5: the claim says the scan always terminates because the cursor
strictly advances.  It does not: on `"A.B[0]"` (bracket present, so the scan
path is taken) the first special character found is a `.`, whose case body is
empty — the cursor never advances and the loop runs forever, shown here as
the fuelled scan running out of fuel for every amount of fuel. -/
theorem c5_scan_not_total :
    ∀ fuel : Nat, fromString fuel c5input = none := by
  have hstep : scanStep c5input ⟨0, -1, []⟩ = .ok (.inl ⟨0, -1, []⟩) := rfl
  have key : ∀ fuel : Nat, scanLoop c5input fuel ⟨0, -1, []⟩ = none := by
    intro fuel
    induction fuel with
    | zero => rfl
    | succ n ih => simp only [scanLoop, hstep]; exact ih
  intro fuel
  have hbr : ¬ indexAny c5input [lbrackChar, rbrackChar] = none := by decide
  simp only [fromString, if_neg hbr, key fuel, Option.map_none']

/-- Claim C6: for every valid simple dotted string with no brackets — here
encoded as the join, with `.`, of a non-empty list of non-empty identifiers
containing none of `.`, `[`, `]` — parsing succeeds with one `Field` part per
identifier, and rendering the parsed Path reproduces the input string
exactly. -/
theorem c6_simple_dotted_roundtrip (ids : List (List Char)) (fuel : Nat)
    (hne : ids ≠ [])
    (hids : ∀ w ∈ ids, w ≠ [] ∧
      ∀ c ∈ w, c ≠ dotChar ∧ c ≠ lbrackChar ∧ c ≠ rbrackChar) :
    fromString fuel (goJoin ids dotChar) = some (.ok ⟨ids.map mkField⟩) ∧
    Path.render ⟨ids.map mkField⟩ = goJoin ids dotChar := by
  have hnosep : ∀ w ∈ ids, dotChar ∉ w := fun w hw hc =>
    (((hids w hw).2 dotChar hc).1) rfl
  have hfast : indexAny (goJoin ids dotChar) [lbrackChar, rbrackChar] = none := by
    apply indexAny_eq_none
    intro c hc
    rcases mem_goJoin dotChar ids c hc with h | ⟨w, hw, hcw⟩
    · subst h; decide
    · have h2 := (hids w hw).2 c hcw
      simp [h2.2.1, h2.2.2]
  refine ⟨?_, ?_⟩
  · simp only [fromString, if_pos hfast,
      goSplit_goJoin dotChar ids hne hnosep]
  · simp only [Path.render, List.map_map]
    have hmap : (pathPart.fieldOrKey ∘ mkField) = id := rfl
    rw [hmap, List.map_id]

/-- Witness for C6: the simple dotted string `"A.B"` (identifiers `A`, `B`)
round-trips through parse and render. -/
theorem c6_witness :
    fromString 1 (goJoin [['A'], ['B']] dotChar) =
      some (.ok ⟨[['A'], ['B']].map mkField⟩) ∧
    Path.render ⟨[['A'], ['B']].map mkField⟩ = goJoin [['A'], ['B']] dotChar :=
  c6_simple_dotted_roundtrip [['A'], ['B']] 1 (by decide) (by decide)

/-- Claim C7: the claim says `copy`/`copyAt` produce fully independent
Paths.  `copyAt` does return a Path of size `index+1`, but it shares the
receiver's backing array: for a Path of two parts `a, b` (backing array
`a :: b :: rest`, capacity `2 + rest.length` — capacity is at least length
for every Go slice), `copyAt 0` yields a length-1 slice over the same array
with spare capacity, so a subsequent `pushBack z` on the copy writes `z` in
place at array position 1, changing the original Path's second part from `b`
to `z`. -/
theorem c7_copyAt_shares_backing (a b z : pathPart) (rest : List pathPart)
    (hzb : z ≠ b) :
    sliceCopyAt ⟨0, 0, 2, 2 + rest.length⟩ 0 =
      some ⟨0, 0, 1, 2 + rest.length⟩ ∧
    sliceRead [a :: b :: rest] ⟨0, 0, 2, 2 + rest.length⟩ 1 = b ∧
    sliceRead (slicePushBack [a :: b :: rest] ⟨0, 0, 1, 2 + rest.length⟩ z).1
      ⟨0, 0, 2, 2 + rest.length⟩ 1 = z ∧
    sliceRead (slicePushBack [a :: b :: rest] ⟨0, 0, 1, 2 + rest.length⟩ z).1
        ⟨0, 0, 2, 2 + rest.length⟩ 1 ≠
      sliceRead [a :: b :: rest] ⟨0, 0, 2, 2 + rest.length⟩ 1 := by
  have h2 : sliceRead [a :: b :: rest] ⟨0, 0, 2, 2 + rest.length⟩ 1 = b := by
    simp [sliceRead, memArr]
  have hcap : (1 : Nat) < 2 + rest.length := by omega
  have h3 : sliceRead
      (slicePushBack [a :: b :: rest] ⟨0, 0, 1, 2 + rest.length⟩ z).1
      ⟨0, 0, 2, 2 + rest.length⟩ 1 = z := by
    simp [slicePushBack, sliceAppend, if_pos hcap, sliceRead, memArr]
  refine ⟨?_, h2, h3, ?_⟩
  · simp [sliceCopyAt]
  · rw [h2, h3]; exact hzb

/-- Witness for C7: concrete parts `Field A`, `Field B`, pushed part
`Field Z`, minimal backing array (capacity 2). -/
theorem c7_witness :
    mkField ['Z'] ≠ mkField ['B'] ∧
    (sliceCopyAt ⟨0, 0, 2, 2⟩ 0 = some ⟨0, 0, 1, 2⟩ ∧
     sliceRead [[mkField ['A'], mkField ['B']]] ⟨0, 0, 2, 2⟩ 1 =
       mkField ['B'] ∧
     sliceRead
       (slicePushBack [[mkField ['A'], mkField ['B']]] ⟨0, 0, 1, 2⟩
         (mkField ['Z'])).1 ⟨0, 0, 2, 2⟩ 1 = mkField ['Z'] ∧
     sliceRead
         (slicePushBack [[mkField ['A'], mkField ['B']]] ⟨0, 0, 1, 2⟩
           (mkField ['Z'])).1 ⟨0, 0, 2, 2⟩ 1 ≠
       sliceRead [[mkField ['A'], mkField ['B']]] ⟨0, 0, 2, 2⟩ 1) :=
  ⟨by decide,
   c7_copyAt_shares_backing (mkField ['A']) (mkField ['B']) (mkField ['Z'])
     [] (by decide)⟩

/-- The Path parsed from `"A.B"`: two `Field` parts `A` and `B`. -/
def pathAB : Path := ⟨[mkField ['A'], mkField ['B']]⟩

/-- Claim C8: `hasPrefixStr` (Go `HasPrefix`) compares case-sensitively and
`hasPrefixFold` case-insensitively, both splitting the subject on `.` and
comparing from the front; both return false whenever the split subject is
longer than the Path; and on the Path parsed from `"A.B"` the documented
example table holds: `"a"` matches only case-insensitively, `"A"` and
`"A.B"` match both ways, `"A.B.C"` and `"B"` match neither way. -/
theorem c8_prefix_behaviour :
    (∀ (p : Path) (subject : List Char),
        (goSplit subject dotChar).length > p.parts.length →
        Path.hasPrefixStr p subject = false ∧
        Path.hasPrefixFold p subject = false) ∧
    (∀ fuel : Nat, fromString fuel ("A.B".toList) = some (.ok pathAB)) ∧
    Path.hasPrefixStr pathAB ("a".toList) = false ∧
    Path.hasPrefixFold pathAB ("a".toList) = true ∧
    Path.hasPrefixStr pathAB ("A".toList) = true ∧
    Path.hasPrefixFold pathAB ("A".toList) = true ∧
    Path.hasPrefixStr pathAB ("A.B".toList) = true ∧
    Path.hasPrefixFold pathAB ("A.B".toList) = true ∧
    Path.hasPrefixStr pathAB ("A.B.C".toList) = false ∧
    Path.hasPrefixFold pathAB ("A.B.C".toList) = false ∧
    Path.hasPrefixStr pathAB ("B".toList) = false ∧
    Path.hasPrefixFold pathAB ("B".toList) = false := by
  refine ⟨?_, fun _ => rfl, by decide, by decide, by decide, by decide,
    by decide, by decide, by decide, by decide, by decide, by decide⟩
  intro p subject h
  constructor
  · simp [Path.hasPrefixStr, h]
  · simp [Path.hasPrefixFold, h]

/-- Witness for C8: the length guard fires on the four-identifier subject
`"A.B.C.D"` against the two-part Path. -/
theorem c8_witness :
    (goSplit ("A.B.C.D".toList) dotChar).length > pathAB.parts.length ∧
    Path.hasPrefixStr pathAB ("A.B.C.D".toList) = false :=
  ⟨by decide, (c8_prefix_behaviour.1 pathAB ("A.B.C.D".toList) (by decide)).1⟩

/-- Claim C9: `Pop` and `PopFront` on an empty Path return nothing and leave
the Path unchanged (size stays 0); on a non-empty Path they remove and
return the last (respectively first) part. -/
theorem c9_pop_popfront_behaviour :
    (Path.Pop ⟨[]⟩ = (none, ⟨[]⟩) ∧ Path.PopFront ⟨[]⟩ = (none, ⟨[]⟩) ∧
      Path.Size (Path.Pop ⟨[]⟩).2 = 0 ∧
      Path.Size (Path.PopFront ⟨[]⟩).2 = 0) ∧
    ∀ (p : Path) (h : p.parts ≠ []),
      Path.Pop p = (some (p.parts.getLast h), ⟨p.parts.dropLast⟩) ∧
      p.parts.dropLast ++ [p.parts.getLast h] = p.parts ∧
      Path.PopFront p = (some (p.parts.head h), ⟨p.parts.tail⟩) ∧
      p.parts.head h :: p.parts.tail = p.parts := by
  refine ⟨⟨rfl, rfl, rfl, rfl⟩, ?_⟩
  intro p h
  have hlen : p.parts.length > 0 := List.length_pos.mpr h
  refine ⟨?_, List.dropLast_append_getLast h, ?_, List.head_cons_tail _ h⟩
  · simp [Path.Pop, if_pos hlen, List.getLast?_eq_getLast _ h]
  · simp [Path.PopFront, if_pos hlen, List.head?_eq_head h]

/-- Witness for C9: popping the one-part Path `⟨[Field A]⟩`. -/
theorem c9_witness :
    Path.Pop ⟨[mkField ['A']]⟩ =
      (some (([mkField ['A']] : List pathPart).getLast (by decide)),
        ⟨([mkField ['A']] : List pathPart).dropLast⟩) :=
  (c9_pop_popfront_behaviour.2 ⟨[mkField ['A']]⟩ (by decide)).1

/-- Claim C10: a case-sensitive prefix match implies a case-insensitive
one: for every Path and subject, `hasPrefixStr p subject = true` implies
`hasPrefixFold p subject = true` (the split and the length guard are
identical, and string equality implies case-folded equality). -/
theorem c10_prefix_mono (p : Path) (subject : List Char)
    (h : Path.hasPrefixStr p subject = true) :
    Path.hasPrefixFold p subject = true := by
  by_cases hlen : (goSplit subject dotChar).length > p.parts.length
  · simp [Path.hasPrefixStr, hlen] at h
  · simp only [Path.hasPrefixStr, if_neg hlen] at h
    simp only [Path.hasPrefixFold, if_neg hlen]
    refine prefixMatch_mono _ eqFold ?_ _ _ h
    intro x y hxy
    have hx : x = y := by simpa using hxy
    subst hx
    simp [eqFold]

/-- Witness for C10: `"A"` is a case-sensitive prefix of the Path with parts
`A`, `B`, hence also a case-insensitive one. -/
theorem c10_witness :
    Path.hasPrefixStr ⟨[mkField ['A'], mkField ['B']]⟩ ("A".toList) = true ∧
    Path.hasPrefixFold ⟨[mkField ['A'], mkField ['B']]⟩ ("A".toList) = true :=
  ⟨by decide, c10_prefix_mono ⟨[mkField ['A'], mkField ['B']]⟩ ("A".toList)
    (by decide)⟩

end Valuepath
